import Mathlib

/-!
Shallow embedding of `nrf-modem`'s TLS stream module
(`src/tls_stream.rs`, `src/tls.rs`).

The spec treats the underlying transport (`Socket`), the physical link
(`LteLink`), the cancellation token and the error-code definitions as
external collaborators consumed through narrow interfaces.  They are
modelled here as environments/oracles:

* every fallible collaborator call is an `Except Error _` value chosen by
  the environment;
* the cancellation token is a function `Nat → Bool` giving its state at
  the n-th check;
* raw socket receive/write results are finite lists of results consumed
  in order (a run that exhausts the list models an operation that never
  returns, hence the `Option` around results of looping operations);
* `connect_with_cancellation` additionally produces a trace of the
  collaborator calls it makes, so that lifecycle claims (link deactivated
  exactly once, candidate k+1 never attempted, ...) are statable.

Rust's `unwrap` panics are modelled by a dedicated `ConnectResult.panic`
outcome.
-/

namespace NrfModem

/-- Modelled from the spec: the error-code taxonomy is external to this
core (`error.rs` is not part of the verified sources).  `operationCancelled`
is the error produced by a canceled token's `as_result`; the other
constructors carry opaque collaborator error codes. -/
inductive Error where
  | operationCancelled
  | transport (code : Nat)
  | link (code : Nat)
deriving DecidableEq, Repr

/-- `PeerVerification` from `src/tls.rs`. -/
inductive PeerVerification where
  | Enabled
  | Optional
  | Disabled
deriving DecidableEq, Repr

/-- `PeerVerification::as_integer` from `src/tls.rs`. -/
def PeerVerification.as_integer : PeerVerification → Nat
  | .Enabled => 2
  | .Optional => 1
  | .Disabled => 0

/-- Address families, as matched out of the resolved `SocketAddr`s in
`connect_with_cancellation`. -/
inductive SocketFamily where
  | Ipv4
  | Ipv6
deriving DecidableEq, Repr

/-- The socket options set on each freshly created socket in
`connect_with_cancellation` (external collaborator payloads). -/
inductive SocketOption where
  | TlsPeerVerify (v : Nat)
  | TlsSessionCache (v : Nat)
  | TlsTagList (tags : List Nat)
deriving DecidableEq, Repr

/-- A transport capability: the opaque handle held by a connected stream.
Only the data observable through this module is modelled: the address
family it was created for and the raw file descriptor. -/
structure Socket where
  family : SocketFamily
  fd : Int
deriving DecidableEq, Repr

/-- `TlsStream`: wraps exactly one transport capability (`inner: Socket`). -/
structure TlsStream where
  inner : Socket
deriving DecidableEq, Repr

/-- `TlsStream::as_raw_fd`. -/
def TlsStream.as_raw_fd (s : TlsStream) : Int :=
  s.inner.fd

/-- Borrowed read half (`TlsReadStream<'a>`): a non-owning reference to the
stream, modelled as holding the stream value. -/
structure TlsReadStream where
  stream : TlsStream
deriving DecidableEq, Repr

/-- Borrowed write half (`TlsWriteStream<'a>`). -/
structure TlsWriteStream where
  stream : TlsStream
deriving DecidableEq, Repr

/-- `TlsStream::split`: the borrowed split.  It is a pure, non-fallible
function (its Rust type has no `Result` and no `async`): both halves are
references to `self` and nothing else is touched. -/
def TlsStream.split (s : TlsStream) : TlsReadStream × TlsWriteStream :=
  (⟨s⟩, ⟨s⟩)

instance {ε α : Type} [DecidableEq ε] [DecidableEq α] : DecidableEq (Except ε α) := fun x y =>
  match x, y with
  | .ok a, .ok b =>
      if h : a = b then .isTrue (by rw [h]) else .isFalse (by intro hc; cases hc; exact h rfl)
  | .ok _, .error _ => .isFalse (by intro hc; cases hc)
  | .error _, .ok _ => .isFalse (by intro hc; cases hc)
  | .error a, .error b =>
      if h : a = b then .isTrue (by rw [h]) else .isFalse (by intro hc; cases hc; exact h rfl)

/-- One candidate address together with the environment's decision for
every collaborator call `connect_with_cancellation` could make for it:
`Socket::create`, the three `set_option`s, the handshake
(`socket.connect`), and `socket.deactivate` on the failure path. -/
structure CandidateEnv where
  isV6 : Bool
  create : Except Error Int
  setPeerVerify : Except Error Unit
  setSessionCache : Except Error Unit
  setTagList : Except Error Unit
  handshake : Except Error Unit
  sockDeactivate : Except Error Unit
deriving DecidableEq, Repr

/-- The address family of a candidate, as computed by the `match addr`
at the top of the loop body. -/
def CandidateEnv.famOf (c : CandidateEnv) : SocketFamily :=
  if c.isV6 then .Ipv6 else .Ipv4

/-- Observable collaborator calls made by `connect_with_cancellation`,
tagged with the candidate index where applicable. -/
inductive Ev where
  | linkActivate
  | tokenCheck (i : Nat)
  | sockCreate (i : Nat) (fam : SocketFamily)
  | setOption (i : Nat) (opt : SocketOption)
  | handshake (i : Nat)
  | sockDeact (i : Nat)
  | linkDeact
deriving DecidableEq, Repr

/-- The candidate index an event belongs to (`none` for link events). -/
def Ev.candIdx : Ev → Option Nat
  | .linkActivate => none
  | .tokenCheck i => some i
  | .sockCreate i _ => some i
  | .setOption i _ => some i
  | .handshake i => some i
  | .sockDeact i => some i
  | .linkDeact => none

def Ev.isTokenCheck : Ev → Bool
  | .tokenCheck _ => true
  | _ => false

def Ev.isLinkDeact : Ev → Bool
  | .linkDeact => true
  | _ => false

def Ev.isLinkActivate : Ev → Bool
  | .linkActivate => true
  | _ => false

def Ev.isCreateFor (i : Nat) : Ev → Bool
  | .sockCreate j _ => j == i
  | _ => false

/-- Number of candidate attempts started (one `token.as_result` check per
loop iteration entered). -/
def attempts (tr : List Ev) : Nat :=
  tr.countP Ev.isTokenCheck

/-- Number of physical-link deactivation calls in a trace. -/
def linkDeacts (tr : List Ev) : Nat :=
  tr.countP Ev.isLinkDeact

/-- Outcome of `connect_with_cancellation`: `Ok(stream)`, `Err(e)`, or a
Rust panic (from `unwrap`). -/
inductive ConnectResult where
  | ok (s : TlsStream)
  | err (e : Error)
  | panic
deriving DecidableEq, Repr

/-- The `for addr in addrs` loop of `TlsStream::connect_with_cancellation`
(lines 135-161), followed by the post-loop
`lte_link.deactivate().await?; Err(last_error.take().unwrap())`.

Arguments: `token i` is the token's canceled-state at the check starting
iteration `i`; `linkDeact` is the environment's answer to
`lte_link.deactivate()` (called at most once per run); `lastErr` is the
`last_error` mutable local.  Returns the trace of collaborator calls and
the outcome. -/
def connectLoop (pv : PeerVerification) (tags : List Nat) (token : Nat → Bool)
    (linkDeact : Except Error Unit) :
    List CandidateEnv → Nat → Option Error → List Ev × ConnectResult
  | [], _, lastErr =>
      -- after the loop: `lte_link.deactivate().await?`
      match linkDeact with
      | .error e => ([.linkDeact], .err e)
      | .ok _ =>
          -- `Err(last_error.take().unwrap())`: unwrap of `None` panics
          match lastErr with
          | some e => ([.linkDeact], .err e)
          | none => ([.linkDeact], .panic)
  | c :: rest, i, _lastErr =>
      -- `token.as_result()?`
      if token i then
        ([.tokenCheck i], .err .operationCancelled)
      else
        -- `Socket::create(family, SocketType::Stream, SocketProtocol::Tls1v2)`
        match c.create with
        | .error e => ([.tokenCheck i, .sockCreate i c.famOf], .err e)
        | .ok fd =>
        -- `socket.set_option(SocketOption::TlsPeerVerify(peer_verify.as_integer()))?`
        match c.setPeerVerify with
        | .error e =>
            ([.tokenCheck i, .sockCreate i c.famOf,
              .setOption i (.TlsPeerVerify pv.as_integer)], .err e)
        | .ok _ =>
        -- `socket.set_option(SocketOption::TlsSessionCache(0))?`
        match c.setSessionCache with
        | .error e =>
            ([.tokenCheck i, .sockCreate i c.famOf,
              .setOption i (.TlsPeerVerify pv.as_integer),
              .setOption i (.TlsSessionCache 0)], .err e)
        | .ok _ =>
        -- `socket.set_option(SocketOption::TlsTagList(security_tags))?`
        match c.setTagList with
        | .error e =>
            ([.tokenCheck i, .sockCreate i c.famOf,
              .setOption i (.TlsPeerVerify pv.as_integer),
              .setOption i (.TlsSessionCache 0),
              .setOption i (.TlsTagList tags)], .err e)
        | .ok _ =>
        -- `match unsafe { socket.connect(addr, token).await }`
        match c.handshake with
        | .ok _ =>
            -- success: `lte_link.deactivate().await?; return Ok(TlsStream { inner: socket })`
            match linkDeact with
            | .error e =>
                ([.tokenCheck i, .sockCreate i c.famOf,
                  .setOption i (.TlsPeerVerify pv.as_integer),
                  .setOption i (.TlsSessionCache 0),
                  .setOption i (.TlsTagList tags),
                  .handshake i, .linkDeact], .err e)
            | .ok _ =>
                ([.tokenCheck i, .sockCreate i c.famOf,
                  .setOption i (.TlsPeerVerify pv.as_integer),
                  .setOption i (.TlsSessionCache 0),
                  .setOption i (.TlsTagList tags),
                  .handshake i, .linkDeact],
                 .ok ⟨⟨c.famOf, fd⟩⟩)
        | .error e =>
            -- failure: `last_error = Some(e); socket.deactivate().await?`
            match c.sockDeactivate with
            | .error de =>
                ([.tokenCheck i, .sockCreate i c.famOf,
                  .setOption i (.TlsPeerVerify pv.as_integer),
                  .setOption i (.TlsSessionCache 0),
                  .setOption i (.TlsTagList tags),
                  .handshake i, .sockDeact i], .err de)
            | .ok _ =>
                let res := connectLoop pv tags token linkDeact rest (i + 1) (some e)
                ([.tokenCheck i, .sockCreate i c.famOf,
                  .setOption i (.TlsPeerVerify pv.as_integer),
                  .setOption i (.TlsSessionCache 0),
                  .setOption i (.TlsTagList tags),
                  .handshake i, .sockDeact i] ++ res.1, res.2)

/-- `TlsStream::connect_with_cancellation` (lines 125-162).

`resolved` is the outcome of `addr.to_socket_addrs()` (resolution is an
external collaborator; an error payload is opaque); `linkNew` answers
`LteLink::new()`.  Note the source order: `LteLink::new().await?` runs
before the `unwrap` on the resolution result. -/
def connect_with_cancellation (resolved : Except Unit (List CandidateEnv))
    (pv : PeerVerification) (tags : List Nat)
    (linkNew linkDeact : Except Error Unit) (token : Nat → Bool) :
    List Ev × ConnectResult :=
  -- `let lte_link = LteLink::new().await?;`
  match linkNew with
  | .error e => ([.linkActivate], .err e)
  | .ok _ =>
      -- `let addrs = addr.to_socket_addrs().unwrap();`
      match resolved with
      | .error _ => ([.linkActivate], .panic)
      | .ok cands =>
          let res := connectLoop pv tags token linkDeact cands 0 none
          (.linkActivate :: res.1, res.2)

/-- `TlsStream::connect` (lines 110-122): delegates to
`connect_with_cancellation` with a default (inert, never-canceling)
token. -/
def connect (resolved : Except Unit (List CandidateEnv))
    (pv : PeerVerification) (tags : List Nat)
    (linkNew linkDeact : Except Error Unit) : List Ev × ConnectResult :=
  connect_with_cancellation resolved pv tags linkNew linkDeact (fun _ => false)

/-!
Cancellable I/O contract (`impl_receive!` / `impl_write!`, lines 15-106).

A buffer is a `List Nat` of bytes.  The raw socket is an oracle: a finite
list of results consumed in order.  For receive, an oracle entry is either
a chunk of bytes the socket writes into the requested slice (`chunk d`,
with `d.length` the reported count) or an error; for write, an entry is
either the number of bytes the socket accepted or an error.  A looping
operation that exhausts the oracle before finishing models a run that is
still suspended, hence the `Option` in its result type.

Rust's `&mut buf[received..]` sub-slice is represented by the pair of the
whole buffer and the offset `received`; a raw receive that returns chunk
`d` against that sub-slice mutates `buf` to `listWrite buf received d`.
-/

/-- Write `chunk` into `buf` starting at offset `off` (the effect of a raw
receive of `chunk` into the sub-slice `buf[off..]`).  Length-preserving
whenever `off + chunk.length ≤ buf.length`. -/
def listWrite (buf : List Nat) (off : Nat) (chunk : List Nat) : List Nat :=
  buf.take off ++ chunk ++ buf.drop (off + chunk.length)

/-- One raw `socket.receive` result from the environment. -/
inductive RawRecv where
  | chunk (d : List Nat)
  | fail (e : Error)
deriving DecidableEq, Repr

/-- `receive_with_cancellation` (lines 26-37): one bounded raw receive
into `buf[..min 1024 buf.length]`.  Returns the requested slice length
`max_receive_len`, and (unless the raw receive never returns, i.e. the
oracle is empty) the result — on success the written prefix
`buf[..received_bytes]` — together with the unconsumed rest of the
oracle. -/
def receive_with_cancellation (orc : List RawRecv) (buf : List Nat) :
    Nat × Option ((Except Error (List Nat)) × List RawRecv) :=
  let maxReceiveLen := min 1024 buf.length
  match orc with
  | [] => (maxReceiveLen, none)
  | .fail e :: rest => (maxReceiveLen, some (.error e, rest))
  | .chunk d :: rest =>
      (maxReceiveLen, some (.ok ((listWrite buf 0 d).take d.length), rest))

/-- `receive` (lines 19-22): delegates to `receive_with_cancellation`
with a default (inert) token; the token state is part of the oracle's
behaviour, so the two coincide in this model. -/
def receive (orc : List RawRecv) (buf : List Nat) :
    Nat × Option ((Except Error (List Nat)) × List RawRecv) :=
  receive_with_cancellation orc buf

/-- The `while received_bytes < buf.len()` loop of
`receive_exact_with_cancellation` (lines 62-74).  Each iteration performs
a raw receive against the sub-slice `buf[received..]` (bounded there by
`min 1024 (buf.length - received)`); a chunk `d` advances `received` by
`d.length`, an error returns `(e, buf[..received])`. -/
def receive_exact_go (orc : List RawRecv) (buf : List Nat) (received : Nat) :
    Option (Except (Error × List Nat) (List Nat)) :=
  if received < buf.length then
    match orc with
    | [] => none
    | .fail e :: _ => some (.error (e, buf.take received))
    | .chunk d :: rest =>
        receive_exact_go rest (listWrite buf received d) (received + d.length)
  else
    some (.ok buf)

/-- `receive_exact_with_cancellation` (lines 57-75): run the fill loop
from `received_bytes = 0`.  On success the final (fully written) buffer is
returned in place of Rust's in-place mutation of `buf`. -/
def receive_exact_with_cancellation (orc : List RawRecv) (buf : List Nat) :
    Option (Except (Error × List Nat) (List Nat)) :=
  receive_exact_go orc buf 0

/-- `receive_exact` (lines 44-50): delegates to
`receive_exact_with_cancellation` with a default (inert) token. -/
def receive_exact (orc : List RawRecv) (buf : List Nat) :
    Option (Except (Error × List Nat) (List Nat)) :=
  receive_exact_with_cancellation orc buf

/-- Well-formedness of a receive oracle along a `receive_exact` run: each
chunk consumed fits in the slice the socket was handed
(`d.length ≤ min 1024 (bufLen - received)`).  A real socket never reports
more bytes than the slice it was given. -/
def recvOracleFits : List RawRecv → Nat → Nat → Bool
  | [], _, _ => true
  | .fail _ :: _, _, _ => true
  | .chunk d :: rest, bufLen, received =>
      if received < bufLen then
        decide (d.length ≤ min 1024 (bufLen - received)) &&
          recvOracleFits rest bufLen (received + d.length)
      else
        true

/-- The `while written_bytes < buf.len()` loop of
`write_with_cancellation` (lines 92-103).  Each iteration issues a raw
write of the chunk `buf[written..][..min 1024 (buf.length - written)]`;
the oracle answers with the number of bytes accepted or an error, which is
returned immediately (`?`, discarding the progress count).  Returns the
list of issued chunks, the list of accepted counts, and the outcome. -/
def write_go (orc : List (Except Error Nat)) (buf : List Nat) (written : Nat) :
    List (List Nat) × List Nat × Option (Except Error Unit) :=
  if written < buf.length then
    match orc with
    | [] => ([], [], none)
    | .error e :: _ =>
        ([(buf.drop written).take (min 1024 (buf.length - written))], [],
         some (.error e))
    | .ok n :: rest =>
        let res := write_go rest buf (written + n)
        ((buf.drop written).take (min 1024 (buf.length - written)) :: res.1,
         n :: res.2.1, res.2.2)
  else
    ([], [], some (.ok ()))

/-- `write_with_cancellation` (lines 87-104): run the write loop from
`written_bytes = 0`. -/
def write_with_cancellation (orc : List (Except Error Nat)) (buf : List Nat) :
    List (List Nat) × List Nat × Option (Except Error Unit) :=
  write_go orc buf 0

/-- `write` (lines 82-84): delegates to `write_with_cancellation` with a
default (inert) token. -/
def write (orc : List (Except Error Nat)) (buf : List Nat) :
    List (List Nat) × List Nat × Option (Except Error Unit) :=
  write_with_cancellation orc buf

/-- Well-formedness of a write oracle: the socket never accepts more bytes
than the chunk it was handed
(`n ≤ min 1024 (bufLen - written)` at each consumed `ok n`). -/
def writeOracleFits : List (Except Error Nat) → Nat → Nat → Bool
  | [], _, _ => true
  | .error _ :: _, _, _ => true
  | .ok n :: rest, bufLen, written =>
      if written < bufLen then
        decide (n ≤ min 1024 (bufLen - written)) &&
          writeOracleFits rest bufLen (written + n)
      else
        true

/-! Helper lemmas about `listWrite`. -/

lemma listWrite_nil (buf : List Nat) (off : Nat) : listWrite buf off [] = buf := by
  simp [listWrite]

lemma listWrite_length (buf : List Nat) (off : Nat) (chunk : List Nat)
    (h : off + chunk.length ≤ buf.length) :
    (listWrite buf off chunk).length = buf.length := by
  simp only [listWrite, List.length_append, List.length_take, List.length_drop]
  omega

lemma listWrite_take (buf : List Nat) (off : Nat) (chunk : List Nat)
    (h : off + chunk.length ≤ buf.length) :
    (listWrite buf off chunk).take (off + chunk.length) = buf.take off ++ chunk := by
  have h1 : (buf.take off ++ chunk).length = off + chunk.length := by
    simp only [List.length_append, List.length_take]
    omega
  rw [listWrite, List.take_left' h1]

lemma listWrite_zero_take (buf : List Nat) (chunk : List Nat)
    (h : chunk.length ≤ buf.length) :
    (listWrite buf 0 chunk).take chunk.length = chunk := by
  have := listWrite_take buf 0 chunk (by omega)
  simpa using this

lemma listWrite_zero_full (buf : List Nat) (chunk : List Nat)
    (h : chunk.length = buf.length) :
    listWrite buf 0 chunk = chunk := by
  simp [listWrite, List.drop_eq_nil_of_le, h.ge]

lemma listWrite_comp (buf : List Nat) (off : Nat) (c1 c2 : List Nat)
    (h : off + c1.length + c2.length ≤ buf.length) :
    listWrite (listWrite buf off c1) (off + c1.length) c2 =
      listWrite buf off (c1 ++ c2) := by
  have htk : (listWrite buf off c1).take (off + c1.length) = buf.take off ++ c1 :=
    listWrite_take buf off c1 (by omega)
  have hdlen : (buf.take off ++ c1).length = off + c1.length := by
    simp only [List.length_append, List.length_take]
    omega
  have hnil : ((buf.take off ++ c1).drop (off + c1.length + c2.length)) = [] := by
    apply List.drop_eq_nil_of_le
    omega
  have hdr : (listWrite buf off c1).drop (off + c1.length + c2.length) =
      buf.drop (off + c1.length + c2.length) := by
    rw [listWrite, List.drop_append_eq_append_drop, hnil, List.nil_append, hdlen,
      List.drop_drop]
    congr 1
    omega
  rw [listWrite, htk, hdr, listWrite,
    show off + (c1 ++ c2).length = off + c1.length + c2.length by
      simp only [List.length_append]
      omega]
  simp [List.append_assoc]

/-!
Claim theorems: borrowed split (C8), resolution-failure panic (C10), and
the single bounded receive (C7).
-/

/-- Claim C8: the borrowed `split()` is non-fallible (it is a pure
function whose type carries no error) and performs no transport-level
change: both halves reference the original stream, the stream's owned
capability is untouched, and `as_raw_fd` observed through either half
after the split equals `as_raw_fd` of the stream before it. -/
theorem split_borrowed_frame (s : TlsStream) :
    (s.split).1.stream = s ∧ (s.split).2.stream = s ∧
    (s.split).1.stream.inner = s.inner ∧ (s.split).2.stream.inner = s.inner ∧
    (s.split).1.stream.as_raw_fd = s.as_raw_fd ∧
    (s.split).2.stream.as_raw_fd = s.as_raw_fd :=
  ⟨rfl, rfl, rfl, rfl, rfl, rfl⟩

/-- Claim C10: when address resolution itself fails (`to_socket_addrs`
returns an error), `connect_with_cancellation` — and hence `connect` —
panics on the `unwrap` (modelled by `ConnectResult.panic`) instead of
returning an `Err`, provided `LteLink::new` succeeded (the link is
activated before the unwrap). -/
theorem connect_resolution_failure_panics (pv : PeerVerification)
    (tags : List Nat) (linkDeact : Except Error Unit) (token : Nat → Bool) :
    (connect_with_cancellation (.error ()) pv tags (.ok ()) linkDeact token).2 =
        .panic ∧
    (connect (.error ()) pv tags (.ok ()) linkDeact).2 = .panic :=
  ⟨rfl, rfl⟩

/-- Claim C7: `receive_with_cancellation` (and `receive`, which is the
same operation with an inert token) performs exactly one raw receive —
consuming exactly one oracle entry and returning the rest untouched —
with requested slice length `min 1024 buf.length`; on a successful raw
receive reporting `d.length` bytes it returns the prefix of the buffer of
exactly that length, which is the received chunk `d` itself. -/
theorem receive_single_bounded_raw (buf d : List Nat) (rest : List RawRecv)
    (hd : d.length ≤ min 1024 buf.length) :
    (receive_with_cancellation (.chunk d :: rest) buf).1 = min 1024 buf.length ∧
    (receive_with_cancellation (.chunk d :: rest) buf).2 = some (.ok d, rest) ∧
    (∀ e r2, receive_with_cancellation (.fail e :: r2) buf =
        (min 1024 buf.length, some (.error e, r2))) ∧
    (∀ orc, receive orc buf = receive_with_cancellation orc buf) := by
  refine ⟨rfl, ?_, fun e r2 => rfl, fun orc => rfl⟩
  have : (listWrite buf 0 d).take d.length = d :=
    listWrite_zero_take buf d (le_trans hd (min_le_right ..))
  simp [receive_with_cancellation, this]

/-- Witness for `receive_single_bounded_raw` at a concrete input. -/
theorem receive_single_bounded_raw_witness :
    ([9, 8] : List Nat).length ≤ min 1024 ([0, 0, 0] : List Nat).length ∧
    (receive_with_cancellation [.chunk [9, 8]] [0, 0, 0]).2 = some (.ok [9, 8], []) :=
  ⟨by decide, (receive_single_bounded_raw [0, 0, 0] [9, 8] [] (by decide)).2.1⟩

/-- The fill loop returns `Ok` with the current buffer as soon as
`received` reaches the buffer length, whatever the oracle holds. -/
lemma receive_exact_go_done (orc : List RawRecv) (buf : List Nat)
    (received : Nat) (h : ¬ received < buf.length) :
    receive_exact_go orc buf received = some (.ok buf) := by
  cases orc with
  | nil => simp [receive_exact_go, h]
  | cons r rest => cases r <;> simp [receive_exact_go, h]

/-- A raw-receive failure while the buffer is not yet full returns the
error paired with the filled prefix. -/
lemma receive_exact_go_fail (e : Error) (rest : List RawRecv)
    (buf : List Nat) (received : Nat) (h : received < buf.length) :
    receive_exact_go (.fail e :: rest) buf received =
      some (.error (e, buf.take received)) := by
  simp [receive_exact_go, h]

/-- A successful raw receive of chunk `d` advances the loop. -/
lemma receive_exact_go_chunk_step (d : List Nat) (rest : List RawRecv)
    (buf : List Nat) (received : Nat) (h : received < buf.length) :
    receive_exact_go (.chunk d :: rest) buf received =
      receive_exact_go rest (listWrite buf received d) (received + d.length) := by
  simp [receive_exact_go, h]

/-- Consuming a block of successful chunks advances the `receive_exact`
loop: the buffer accumulates the concatenation of the chunks at the
running offset. -/
lemma receive_exact_go_chunks (ds : List (List Nat)) (rest : List RawRecv)
    (buf : List Nat) (received : Nat)
    (hfit : recvOracleFits (ds.map RawRecv.chunk ++ rest) buf.length received = true)
    (hle : received + ds.flatten.length ≤ buf.length) :
    receive_exact_go (ds.map RawRecv.chunk ++ rest) buf received =
      receive_exact_go rest (listWrite buf received ds.flatten)
        (received + ds.flatten.length) := by
  induction ds generalizing buf received with
  | nil =>
      rw [List.map_nil, List.nil_append, List.flatten_nil, listWrite_nil,
        List.length_nil, Nat.add_zero]
  | cons d ds ih =>
      rw [List.flatten_cons] at hle
      rw [List.length_append] at hle
      by_cases hr : received < buf.length
      · simp only [List.map_cons, List.cons_append, recvOracleFits, hr, if_true,
          Bool.and_eq_true, decide_eq_true_eq] at hfit
        obtain ⟨hd, hrest⟩ := hfit
        have hdle : received + d.length ≤ buf.length := by omega
        have hwlen : (listWrite buf received d).length = buf.length :=
          listWrite_length buf received d hdle
        rw [List.map_cons, List.cons_append,
          receive_exact_go_chunk_step d (ds.map RawRecv.chunk ++ rest) buf received hr,
          ih (listWrite buf received d) (received + d.length)
            (by rw [hwlen]; exact hrest) (by rw [hwlen]; omega),
          listWrite_comp buf received d ds.flatten (by omega),
          List.flatten_cons,
          show received + d.length + ds.flatten.length = received + (d ++ ds.flatten).length from by
            simp only [List.length_append]
            omega]
      · have hdnil : d = [] := List.length_eq_zero.mp (by omega)
        have hjnil : ds.flatten = [] := List.length_eq_zero.mp (by omega)
        subst hdnil
        rw [List.map_cons, List.cons_append,
          show receive_exact_go (RawRecv.chunk [] :: (ds.map RawRecv.chunk ++ rest)) buf received =
            some (.ok buf) from by simp [receive_exact_go, hr],
          List.flatten_cons, List.nil_append, hjnil, listWrite_nil,
          receive_exact_go_done rest buf _ (by simpa using hr)]

/-- Claim C3: for every buffer and raw-receive behaviour that respects the
requested slice sizes, `receive_exact_with_cancellation` (and
`receive_exact`, the same loop with an inert token):
if a raw receive fails after a cumulative total of
`ds.flatten.length < buf.length` bytes, it returns the error paired with
the prefix of the buffer of exactly that length, whose contents are
exactly the bytes received so far in order (`ds.flatten`); and if the
transport supplies `buf.length` bytes without error, it returns success
with the buffer fully populated by the received bytes. -/
theorem receive_exact_partial_progress (ds : List (List Nat)) (buf : List Nat)
    (e : Error) (rest rest2 : List RawRecv) :
    (recvOracleFits (ds.map RawRecv.chunk ++ .fail e :: rest) buf.length 0 = true →
      ds.flatten.length < buf.length →
      receive_exact_with_cancellation (ds.map RawRecv.chunk ++ .fail e :: rest) buf =
        some (.error (e, ds.flatten)) ∧
      receive_exact (ds.map RawRecv.chunk ++ .fail e :: rest) buf =
        some (.error (e, ds.flatten))) ∧
    (recvOracleFits (ds.map RawRecv.chunk ++ rest2) buf.length 0 = true →
      ds.flatten.length = buf.length →
      receive_exact_with_cancellation (ds.map RawRecv.chunk ++ rest2) buf =
        some (.ok ds.flatten) ∧
      receive_exact (ds.map RawRecv.chunk ++ rest2) buf =
        some (.ok ds.flatten)) := by
  constructor
  · intro hfit hlt
    have hrun := receive_exact_go_chunks ds (.fail e :: rest) buf 0 hfit (by omega)
    have hwlen : (listWrite buf 0 ds.flatten).length = buf.length :=
      listWrite_length buf 0 ds.flatten (by omega)
    have hstop := receive_exact_go_fail e rest (listWrite buf 0 ds.flatten)
      (0 + ds.flatten.length) (by omega)
    have htake : (listWrite buf 0 ds.flatten).take (0 + ds.flatten.length) = ds.flatten := by
      rw [Nat.zero_add]
      exact listWrite_zero_take buf ds.flatten (by omega)
    have hmain : receive_exact_with_cancellation
        (ds.map RawRecv.chunk ++ .fail e :: rest) buf = some (.error (e, ds.flatten)) := by
      rw [receive_exact_with_cancellation, hrun, hstop, htake]
    exact ⟨hmain, hmain⟩
  · intro hfit heq
    have hrun := receive_exact_go_chunks ds rest2 buf 0 hfit (by omega)
    have hfull : listWrite buf 0 ds.flatten = ds.flatten :=
      listWrite_zero_full buf ds.flatten heq
    have hstop : receive_exact_go rest2 (listWrite buf 0 ds.flatten)
        (0 + ds.flatten.length) = some (.ok (listWrite buf 0 ds.flatten)) := by
      apply receive_exact_go_done
      rw [hfull]
      omega
    have hmain : receive_exact_with_cancellation (ds.map RawRecv.chunk ++ rest2) buf =
        some (.ok ds.flatten) := by
      rw [receive_exact_with_cancellation, hrun, hstop, hfull]
    exact ⟨hmain, hmain⟩

/-- Witness for `receive_exact_partial_progress` at concrete inputs. -/
theorem receive_exact_partial_progress_witness :
    (receive_exact_with_cancellation
        [.chunk [1, 2], .fail (.transport 3)] [0, 0, 0, 0, 0] =
      some (.error (.transport 3, [1, 2]))) ∧
    (receive_exact_with_cancellation
        [.chunk [1, 2], .chunk [3], .chunk [4, 5]] [0, 0, 0, 0, 0] =
      some (.ok [1, 2, 3, 4, 5])) :=
  ⟨((receive_exact_partial_progress [[1, 2]] [0, 0, 0, 0, 0] (.transport 3) [] []).1
      (by decide) (by decide)).1,
   ((receive_exact_partial_progress [[1, 2], [3], [4, 5]] [0, 0, 0, 0, 0]
      (.transport 3) [] []).2 (by decide) (by decide)).1⟩

/-- The write loop returns `Ok` without issuing a write as soon as
`written` reaches the buffer length, whatever the oracle holds. -/
lemma write_go_done (orc : List (Except Error Nat)) (buf : List Nat)
    (written : Nat) (h : ¬ written < buf.length) :
    write_go orc buf written = ([], [], some (.ok ())) := by
  cases orc with
  | nil => simp [write_go, h]
  | cons r rest => cases r <;> simp [write_go, h]

/-- A raw-write failure while bytes remain is returned immediately. -/
lemma write_go_err (e : Error) (rest : List (Except Error Nat))
    (buf : List Nat) (written : Nat) (h : written < buf.length) :
    write_go (.error e :: rest) buf written =
      ([(buf.drop written).take (min 1024 (buf.length - written))], [],
       some (.error e)) := by
  simp [write_go, h]

/-- A raw write accepting `n` bytes advances the loop. -/
lemma write_go_ok_step (n : Nat) (rest : List (Except Error Nat))
    (buf : List Nat) (written : Nat) (h : written < buf.length) :
    write_go (.ok n :: rest) buf written =
      ((buf.drop written).take (min 1024 (buf.length - written)) ::
         (write_go rest buf (written + n)).1,
       n :: (write_go rest buf (written + n)).2.1,
       (write_go rest buf (written + n)).2.2) := by
  simp [write_go, h]

/-- Every chunk the write loop hands to the raw write is at most 1024
bytes long (it is `buf[written..][..min 1024 (buf.length - written)]`). -/
lemma write_go_chunk_bound (orc : List (Except Error Nat)) (buf : List Nat)
    (written : Nat) :
    ∀ c ∈ (write_go orc buf written).1, c.length ≤ 1024 := by
  induction orc generalizing written with
  | nil => by_cases h : written < buf.length <;> simp [write_go, h]
  | cons r rest ih =>
      by_cases h : written < buf.length
      · cases r with
        | error e =>
            rw [write_go_err e rest buf written h]
            intro c hc
            rw [List.mem_singleton] at hc
            subst hc
            simp only [List.length_take, List.length_drop]
            omega
        | ok n =>
            rw [write_go_ok_step n rest buf written h]
            intro c hc
            rcases List.mem_cons.mp hc with hc | hc
            · subst hc
              simp only [List.length_take, List.length_drop]
              omega
            · exact ih (written + n) c hc
      · rw [write_go_done (r :: rest) buf written h]
        simp

/-- If the write loop reports success, the accepted counts sum to the
remaining buffer length. -/
lemma write_go_success_sum (orc : List (Except Error Nat)) (buf : List Nat)
    (written : Nat)
    (hfit : writeOracleFits orc buf.length written = true)
    (hw : written ≤ buf.length) :
    (write_go orc buf written).2.2 = some (.ok ()) →
    written + (write_go orc buf written).2.1.sum = buf.length := by
  induction orc generalizing written with
  | nil =>
      by_cases h : written < buf.length
      · simp [write_go, h]
      · simp only [write_go_done [] buf written h, List.sum_nil]
        intro _
        omega
  | cons r rest ih =>
      by_cases h : written < buf.length
      · cases r with
        | error e => rw [write_go_err e rest buf written h]; simp
        | ok n =>
            simp only [writeOracleFits, h, if_true, Bool.and_eq_true,
              decide_eq_true_eq] at hfit
            obtain ⟨hn, hrest⟩ := hfit
            rw [write_go_ok_step n rest buf written h]
            intro hok
            have := ih (written + n) hrest (by omega) hok
            simp only [List.sum_cons]
            omega
      · rw [write_go_done (r :: rest) buf written h]
        intro _
        simp only [List.sum_nil]
        omega

/-- Consuming a block of positive accepted counts advances the write
loop, accumulating the counts. -/
lemma write_go_skip (ns : List Nat) (rest : List (Except Error Nat))
    (buf : List Nat) (written : Nat)
    (hfit : writeOracleFits (ns.map Except.ok ++ rest) buf.length written = true)
    (hle : written + ns.sum ≤ buf.length) (hpos : ∀ n ∈ ns, 0 < n) :
    (write_go (ns.map Except.ok ++ rest) buf written).2 =
      (ns ++ (write_go rest buf (written + ns.sum)).2.1,
       (write_go rest buf (written + ns.sum)).2.2) := by
  induction ns generalizing written with
  | nil => simp
  | cons n ns ih =>
      rw [List.sum_cons] at hle
      have hn : 0 < n := hpos n (List.mem_cons_self ..)
      have hw : written < buf.length := by omega
      simp only [List.map_cons, List.cons_append] at hfit ⊢
      simp only [writeOracleFits, hw, if_true, Bool.and_eq_true,
        decide_eq_true_eq] at hfit
      obtain ⟨hbnd, hrest⟩ := hfit
      rw [write_go_ok_step n (ns.map Except.ok ++ rest) buf written hw]
      have hih := ih (written + n) hrest (by omega)
        (fun m hm => hpos m (List.mem_cons_of_mem n hm))
      show (n :: (write_go (ns.map Except.ok ++ rest) buf (written + n)).2.1,
            (write_go (ns.map Except.ok ++ rest) buf (written + n)).2.2) =
          ((n :: ns) ++ (write_go rest buf (written + (n :: ns).sum)).2.1,
           (write_go rest buf (written + (n :: ns).sum)).2.2)
      rw [hih, show written + (n :: ns).sum = written + n + ns.sum from by
            rw [List.sum_cons]
            omega]
      simp

/-- Claim C4: `write` / `write_with_cancellation` issue underlying writes
each bounded by `min 1024 (buf.length - written)` — so never exceeding
1024 bytes — until the accepted counts sum to the buffer length, then
return success; an underlying write error is returned as just the error
(the success payload type is `Unit`, so no count of bytes already written
is exposed, unlike `receive_exact`). -/
theorem write_chunked_full_buffer (ns : List Nat) (e : Error)
    (rest rest2 : List (Except Error Nat)) (buf : List Nat) :
    (∀ orc, ∀ c ∈ (write_with_cancellation orc buf).1, c.length ≤ 1024) ∧
    (∀ orc, writeOracleFits orc buf.length 0 = true →
      (write_with_cancellation orc buf).2.2 = some (.ok ()) →
      (write_with_cancellation orc buf).2.1.sum = buf.length) ∧
    (writeOracleFits (ns.map Except.ok ++ rest2) buf.length 0 = true →
      (∀ n ∈ ns, 0 < n) → ns.sum = buf.length →
      (write_with_cancellation (ns.map Except.ok ++ rest2) buf).2 =
        (ns, some (.ok ()))) ∧
    (writeOracleFits (ns.map Except.ok ++ .error e :: rest) buf.length 0 = true →
      (∀ n ∈ ns, 0 < n) → ns.sum < buf.length →
      (write_with_cancellation (ns.map Except.ok ++ .error e :: rest) buf).2 =
        (ns, some (.error e))) := by
  refine ⟨fun orc => write_go_chunk_bound orc buf 0, fun orc hfit hok => ?_, ?_, ?_⟩
  · have := write_go_success_sum orc buf 0 hfit (Nat.zero_le _) hok
    rw [write_with_cancellation]
    omega
  · intro hfit hpos hsum
    have hskip := write_go_skip ns rest2 buf 0 hfit (by omega) hpos
    rw [write_with_cancellation, hskip, Nat.zero_add, hsum,
      write_go_done rest2 buf buf.length (by omega)]
    simp
  · intro hfit hpos hsum
    have hskip := write_go_skip ns (.error e :: rest) buf 0 hfit (by omega) hpos
    rw [write_with_cancellation, hskip, Nat.zero_add,
      write_go_err e rest buf ns.sum hsum]
    simp

/-- Witness for `write_chunked_full_buffer` at concrete inputs. -/
theorem write_chunked_full_buffer_witness :
    (write_with_cancellation [Except.ok 2, Except.ok 1] [5, 6, 7]).2 =
        ([2, 1], some (.ok ())) ∧
    (write_with_cancellation [Except.ok 2, Except.error (Error.transport 9)]
        [5, 6, 7]).2 = ([2], some (.error (.transport 9))) :=
  ⟨(write_chunked_full_buffer [2, 1] (.transport 9) [] [] [5, 6, 7]).2.2.1
      (by decide) (by decide) (by decide),
   (write_chunked_full_buffer [2] (.transport 9) [] [] [5, 6, 7]).2.2.2
      (by decide) (by decide) (by decide)⟩

/-!
Connect-loop lemmas.  A candidate attempt that reaches the handshake
always emits the same six-event prefix (`attemptSeg`); a failed attempt
whose socket deactivation is also attempted emits `failSeg`.
-/

/-- Events of one candidate attempt up to and including the handshake. -/
def attemptSeg (pv : PeerVerification) (tags : List Nat) (c : CandidateEnv)
    (i : Nat) : List Ev :=
  [.tokenCheck i, .sockCreate i c.famOf,
   .setOption i (.TlsPeerVerify pv.as_integer),
   .setOption i (.TlsSessionCache 0),
   .setOption i (.TlsTagList tags),
   .handshake i]

/-- Events of one failed candidate attempt, including the deactivation of
its socket. -/
def failSeg (pv : PeerVerification) (tags : List Nat) (c : CandidateEnv)
    (i : Nat) : List Ev :=
  attemptSeg pv tags c i ++ [.sockDeact i]

/-- Trace of a run of consecutive benignly failing candidates starting at
index `i`. -/
def skipTrace (pv : PeerVerification) (tags : List Nat) :
    List CandidateEnv → Nat → List Ev
  | [], _ => []
  | c :: rest, i => failSeg pv tags c i ++ skipTrace pv tags rest (i + 1)

/-- A candidate whose setup succeeds, whose handshake fails, and whose
socket deactivation succeeds — the loop records its error and moves on. -/
def CandidateEnv.failsBenignly (c : CandidateEnv) : Prop :=
  c.create.isOk = true ∧ c.setPeerVerify = .ok () ∧ c.setSessionCache = .ok () ∧
    c.setTagList = .ok () ∧ c.handshake.isOk = false ∧ c.sockDeactivate = .ok ()

instance (c : CandidateEnv) : Decidable c.failsBenignly := by
  unfold CandidateEnv.failsBenignly
  infer_instance

/-- The value of `last_error` after the loop has processed `pre`. -/
def lastErrAfter (pre : List CandidateEnv) (le : Option Error) : Option Error :=
  pre.foldl (fun acc c => match c.handshake with | .error e => some e | .ok _ => acc) le

lemma connectLoop_nil_ok (pv : PeerVerification) (tags : List Nat)
    (token : Nat → Bool) (i : Nat) (e : Error) :
    connectLoop pv tags token (.ok ()) [] i (some e) = ([.linkDeact], .err e) := by
  simp [connectLoop]

lemma connectLoop_nil_none (pv : PeerVerification) (tags : List Nat)
    (token : Nat → Bool) (i : Nat) :
    connectLoop pv tags token (.ok ()) [] i none = ([.linkDeact], .panic) := by
  simp [connectLoop]

lemma connectLoop_cancel (pv : PeerVerification) (tags : List Nat)
    (token : Nat → Bool) (ld : Except Error Unit) (c : CandidateEnv)
    (rest : List CandidateEnv) (i : Nat) (le : Option Error)
    (ht : token i = true) :
    connectLoop pv tags token ld (c :: rest) i le =
      ([.tokenCheck i], .err .operationCancelled) := by
  simp [connectLoop, ht]

lemma connectLoop_success (pv : PeerVerification) (tags : List Nat)
    (token : Nat → Bool) (c : CandidateEnv) (rest : List CandidateEnv)
    (i : Nat) (le : Option Error) (fd : Int)
    (ht : token i = false) (hcr : c.create = .ok fd)
    (h1 : c.setPeerVerify = .ok ()) (h2 : c.setSessionCache = .ok ())
    (h3 : c.setTagList = .ok ()) (hh : c.handshake = .ok ()) :
    connectLoop pv tags token (.ok ()) (c :: rest) i le =
      (attemptSeg pv tags c i ++ [.linkDeact], .ok ⟨⟨c.famOf, fd⟩⟩) := by
  simp [connectLoop, attemptSeg, ht, hcr, h1, h2, h3, hh]

lemma connectLoop_failstep (pv : PeerVerification) (tags : List Nat)
    (token : Nat → Bool) (ld : Except Error Unit) (c : CandidateEnv)
    (rest : List CandidateEnv) (i : Nat) (le : Option Error) (fd : Int) (e : Error)
    (ht : token i = false) (hcr : c.create = .ok fd)
    (h1 : c.setPeerVerify = .ok ()) (h2 : c.setSessionCache = .ok ())
    (h3 : c.setTagList = .ok ()) (hh : c.handshake = .error e)
    (hsd : c.sockDeactivate = .ok ()) :
    connectLoop pv tags token ld (c :: rest) i le =
      (failSeg pv tags c i ++ (connectLoop pv tags token ld rest (i + 1) (some e)).1,
       (connectLoop pv tags token ld rest (i + 1) (some e)).2) := by
  simp [connectLoop, failSeg, attemptSeg, ht, hcr, h1, h2, h3, hh, hsd]

lemma connectLoop_deactfail (pv : PeerVerification) (tags : List Nat)
    (token : Nat → Bool) (ld : Except Error Unit) (c : CandidateEnv)
    (rest : List CandidateEnv) (i : Nat) (le : Option Error) (fd : Int)
    (e d : Error)
    (ht : token i = false) (hcr : c.create = .ok fd)
    (h1 : c.setPeerVerify = .ok ()) (h2 : c.setSessionCache = .ok ())
    (h3 : c.setTagList = .ok ()) (hh : c.handshake = .error e)
    (hsd : c.sockDeactivate = .error d) :
    connectLoop pv tags token ld (c :: rest) i le =
      (failSeg pv tags c i, .err d) := by
  simp [connectLoop, failSeg, attemptSeg, ht, hcr, h1, h2, h3, hh, hsd]

/-- Unfolding `connect_with_cancellation` when the link activates and
resolution succeeds. -/
lemma connect_with_cancellation_ok (cands : List CandidateEnv)
    (pv : PeerVerification) (tags : List Nat) (ld : Except Error Unit)
    (token : Nat → Bool) :
    connect_with_cancellation (.ok cands) pv tags (.ok ()) ld token =
      ((.linkActivate : Ev) :: (connectLoop pv tags token ld cands 0 none).1,
       (connectLoop pv tags token ld cands 0 none).2) := rfl

/-- Skipping a prefix of benignly failing candidates: the loop emits their
`failSeg`s and continues at the shifted index with the last recorded
error. -/
lemma connectLoop_skip (pv : PeerVerification) (tags : List Nat)
    (token : Nat → Bool) (ld : Except Error Unit)
    (pre rest : List CandidateEnv) :
    ∀ (i : Nat) (le : Option Error),
      (∀ c ∈ pre, c.failsBenignly) →
      (∀ j, j < pre.length → token (i + j) = false) →
      connectLoop pv tags token ld (pre ++ rest) i le =
        (skipTrace pv tags pre i ++
           (connectLoop pv tags token ld rest (i + pre.length)
             (lastErrAfter pre le)).1,
         (connectLoop pv tags token ld rest (i + pre.length)
           (lastErrAfter pre le)).2) := by
  induction pre with
  | nil =>
      intro i le _ _
      simp [skipTrace, lastErrAfter]
  | cons c pre ih =>
      intro i le hpre htok
      obtain ⟨hcr, h1, h2, h3, hh, hsd⟩ := hpre c (List.mem_cons_self ..)
      obtain ⟨fd, hfd⟩ : ∃ fd, c.create = .ok fd := by
        cases hc : c.create with
        | ok v => exact ⟨v, rfl⟩
        | error ee => rw [hc] at hcr; simp [Except.isOk, Except.toBool] at hcr
      obtain ⟨e, he⟩ : ∃ e, c.handshake = .error e := by
        cases hc : c.handshake with
        | ok v => rw [hc] at hh; simp [Except.isOk, Except.toBool] at hh
        | error ee => exact ⟨ee, rfl⟩
      have ht : token i = false := by simpa using htok 0 (by simp)
      have htok2 : ∀ j, j < pre.length → token ((i + 1) + j) = false := by
        intro j hj
        have := htok (j + 1) (by simp only [List.length_cons]; omega)
        rw [show i + (j + 1) = i + 1 + j from by omega] at this
        exact this
      rw [List.cons_append,
        connectLoop_failstep pv tags token ld c (pre ++ rest) i le fd e
          ht hfd h1 h2 h3 he hsd,
        ih (i + 1) (some e) (fun cc hc => hpre cc (List.mem_cons_of_mem c hc)) htok2,
        show lastErrAfter (c :: pre) le = lastErrAfter pre (some e) from by
          simp [lastErrAfter, he],
        show i + (c :: pre).length = (i + 1) + pre.length from by
          simp only [List.length_cons]
          omega,
        skipTrace]
      simp [List.append_assoc]

lemma countP_tokenCheck_failSeg (pv : PeerVerification) (tags : List Nat)
    (c : CandidateEnv) (i : Nat) :
    (failSeg pv tags c i).countP Ev.isTokenCheck = 1 := rfl

lemma countP_tokenCheck_skipTrace (pv : PeerVerification) (tags : List Nat)
    (pre : List CandidateEnv) :
    ∀ i, (skipTrace pv tags pre i).countP Ev.isTokenCheck = pre.length := by
  induction pre with
  | nil => intro i; rfl
  | cons c pre ih =>
      intro i
      rw [skipTrace, List.countP_append, countP_tokenCheck_failSeg, ih (i + 1)]
      simp only [List.length_cons]
      omega

lemma countP_linkDeact_failSeg (pv : PeerVerification) (tags : List Nat)
    (c : CandidateEnv) (i : Nat) :
    (failSeg pv tags c i).countP Ev.isLinkDeact = 0 := rfl

lemma countP_linkDeact_skipTrace (pv : PeerVerification) (tags : List Nat)
    (pre : List CandidateEnv) :
    ∀ i, (skipTrace pv tags pre i).countP Ev.isLinkDeact = 0 := by
  induction pre with
  | nil => intro i; rfl
  | cons c pre ih =>
      intro i
      rw [skipTrace, List.countP_append, countP_linkDeact_failSeg, ih (i + 1)]

lemma countP_linkActivate_failSeg (pv : PeerVerification) (tags : List Nat)
    (c : CandidateEnv) (i : Nat) :
    (failSeg pv tags c i).countP Ev.isLinkActivate = 0 := rfl

lemma countP_linkActivate_skipTrace (pv : PeerVerification) (tags : List Nat)
    (pre : List CandidateEnv) :
    ∀ i, (skipTrace pv tags pre i).countP Ev.isLinkActivate = 0 := by
  induction pre with
  | nil => intro i; rfl
  | cons c pre ih =>
      intro i
      rw [skipTrace, List.countP_append, countP_linkActivate_failSeg, ih (i + 1)]

/-- Every event of a candidate's attempt prefix carries that candidate's
index. -/
lemma candIdx_attemptSeg (pv : PeerVerification) (tags : List Nat)
    (c : CandidateEnv) (i : Nat) (ev : Ev)
    (hev : ev ∈ attemptSeg pv tags c i) : ev.candIdx = some i := by
  simp only [attemptSeg, List.mem_cons, List.not_mem_nil, or_false] at hev
  rcases hev with h | h | h | h | h | h <;> subst h <;> rfl

/-- Every event of a failed attempt carries that candidate's index. -/
lemma candIdx_failSeg (pv : PeerVerification) (tags : List Nat)
    (c : CandidateEnv) (i : Nat) (ev : Ev)
    (hev : ev ∈ failSeg pv tags c i) : ev.candIdx = some i := by
  rw [failSeg] at hev
  rcases List.mem_append.mp hev with h | h
  · exact candIdx_attemptSeg pv tags c i ev h
  · rw [List.mem_singleton] at h
    subst h
    rfl

/-- Events in a benign-failure run at start index `i` over `pre` carry
indices in `[i, i + pre.length)`. -/
lemma candIdx_skipTrace (pv : PeerVerification) (tags : List Nat)
    (pre : List CandidateEnv) :
    ∀ i ev, ev ∈ skipTrace pv tags pre i → ∀ m, ev.candIdx = some m →
      i ≤ m ∧ m < i + pre.length := by
  induction pre with
  | nil => intro i ev hev; rw [skipTrace] at hev; cases hev
  | cons c pre ih =>
      intro i ev hev m hm
      rw [skipTrace] at hev
      rcases List.mem_append.mp hev with h | h
      · have := candIdx_failSeg pv tags c i ev h
        rw [this] at hm
        cases hm
        simp only [List.length_cons]
        omega
      · obtain ⟨hl, hr⟩ := ih (i + 1) ev h m hm
        simp only [List.length_cons]
        omega

/-- The trace of a loop run over a non-empty candidate list starts with
the token check of the first candidate. -/
lemma connectLoop_cons_head (pv : PeerVerification) (tags : List Nat)
    (token : Nat → Bool) (ld : Except Error Unit) (c : CandidateEnv)
    (rest : List CandidateEnv) (i : Nat) (le : Option Error) :
    ∃ tr, (connectLoop pv tags token ld (c :: rest) i le).1 =
      .tokenCheck i :: tr := by
  rw [connectLoop]
  repeat' split
  all_goals exact ⟨_, rfl⟩

/-- Claim C1: for every non-empty candidate list in which candidate
`k = pre.length`'s handshake succeeds and every candidate before it fails
benignly (setup succeeds, handshake fails, and the failed capability's
deactivation succeeds), with an inert token and with the link
collaborators succeeding, `connect_with_cancellation` returns `Ok` with a
stream wrapping the capability created for candidate `k` (its family and
file descriptor), attempts exactly the candidates `0..k` (no candidate
after `k`), and deactivates the physical link exactly once. -/
theorem connect_success_at_candidate_k (pv : PeerVerification)
    (tags : List Nat) (token : Nat → Bool) (pre rest : List CandidateEnv)
    (ck : CandidateEnv) (fd : Int)
    (hpre : ∀ c ∈ pre, c.failsBenignly)
    (htok : ∀ j, token j = false)
    (hcr : ck.create = .ok fd) (h1 : ck.setPeerVerify = .ok ())
    (h2 : ck.setSessionCache = .ok ()) (h3 : ck.setTagList = .ok ())
    (hh : ck.handshake = .ok ()) :
    (connect_with_cancellation (.ok (pre ++ ck :: rest)) pv tags
        (.ok ()) (.ok ()) token).2 = .ok ⟨⟨ck.famOf, fd⟩⟩ ∧
    attempts (connect_with_cancellation (.ok (pre ++ ck :: rest)) pv tags
        (.ok ()) (.ok ()) token).1 = pre.length + 1 ∧
    linkDeacts (connect_with_cancellation (.ok (pre ++ ck :: rest)) pv tags
        (.ok ()) (.ok ()) token).1 = 1 := by
  have htok0 : ∀ j, j < pre.length → token (0 + j) = false := fun j _ => by
    rw [Nat.zero_add]
    exact htok j
  rw [connect_with_cancellation_ok,
    connectLoop_skip pv tags token (.ok ()) pre (ck :: rest) 0 none hpre htok0,
    connectLoop_success pv tags token ck rest (0 + pre.length)
      (lastErrAfter pre none) fd (htok _) hcr h1 h2 h3 hh]
  refine ⟨rfl, ?_, ?_⟩
  · simp [attempts, List.countP_cons, List.countP_append,
      countP_tokenCheck_skipTrace, attemptSeg, Ev.isTokenCheck]
  · simp [linkDeacts, List.countP_cons, List.countP_append,
      countP_linkDeact_skipTrace, attemptSeg, Ev.isLinkDeact]

/-- Witness for `connect_success_at_candidate_k` at a concrete input:
one benignly failing candidate followed by a succeeding one. -/
theorem connect_success_at_candidate_k_witness :
    (connect_with_cancellation
        (.ok ([⟨false, .ok 7, .ok (), .ok (), .ok (), .error (.transport 5), .ok ()⟩] ++
          ⟨true, .ok 9, .ok (), .ok (), .ok (), .ok (), .ok ()⟩ :: []))
        .Enabled [1, 2] (.ok ()) (.ok ()) (fun _ => false)).2 =
      .ok ⟨⟨.Ipv6, 9⟩⟩ ∧
    attempts (connect_with_cancellation
        (.ok ([⟨false, .ok 7, .ok (), .ok (), .ok (), .error (.transport 5), .ok ()⟩] ++
          ⟨true, .ok 9, .ok (), .ok (), .ok (), .ok (), .ok ()⟩ :: []))
        .Enabled [1, 2] (.ok ()) (.ok ()) (fun _ => false)).1 = 2 ∧
    linkDeacts (connect_with_cancellation
        (.ok ([⟨false, .ok 7, .ok (), .ok (), .ok (), .error (.transport 5), .ok ()⟩] ++
          ⟨true, .ok 9, .ok (), .ok (), .ok (), .ok (), .ok ()⟩ :: []))
        .Enabled [1, 2] (.ok ()) (.ok ()) (fun _ => false)).1 = 1 :=
  connect_success_at_candidate_k .Enabled [1, 2] (fun _ => false)
    [⟨false, .ok 7, .ok (), .ok (), .ok (), .error (.transport 5), .ok ()⟩] []
    ⟨true, .ok 9, .ok (), .ok (), .ok (), .ok (), .ok ()⟩ 9
    (by decide) (fun j => rfl) rfl rfl rfl rfl rfl

/-- Claim C2: for every non-empty candidate list in which every
candidate fails benignly (handshake fails; its capability's deactivation
succeeds), with an inert token and succeeding link collaborators,
`connect_with_cancellation` returns the error recorded from the last
candidate attempted, and the physical link is deactivated exactly
once. -/
theorem connect_all_fail_returns_last_error (pv : PeerVerification)
    (tags : List Nat) (token : Nat → Bool) (pre : List CandidateEnv)
    (cl : CandidateEnv) (e : Error)
    (hpre : ∀ c ∈ pre ++ [cl], c.failsBenignly)
    (htok : ∀ j, token j = false)
    (he : cl.handshake = .error e) :
    (connect_with_cancellation (.ok (pre ++ [cl])) pv tags
        (.ok ()) (.ok ()) token).2 = .err e ∧
    linkDeacts (connect_with_cancellation (.ok (pre ++ [cl])) pv tags
        (.ok ()) (.ok ()) token).1 = 1 := by
  have htok0 : ∀ j, j < (pre ++ [cl]).length → token (0 + j) = false :=
    fun j _ => by
      rw [Nat.zero_add]
      exact htok j
  have hlast : lastErrAfter (pre ++ [cl]) none = some e := by
    simp [lastErrAfter, List.foldl_append, he]
  rw [show pre ++ [cl] = (pre ++ [cl]) ++ [] from by simp] at hpre ⊢
  rw [connect_with_cancellation_ok,
    connectLoop_skip pv tags token (.ok ()) (pre ++ [cl]) [] 0 none
      (by simpa using hpre) (by simpa using htok0)]
  rw [hlast, connectLoop_nil_ok]
  refine ⟨rfl, ?_⟩
  simp [linkDeacts, List.countP_cons, List.countP_append,
    countP_linkDeact_skipTrace, Ev.isLinkDeact]

/-- Witness for `connect_all_fail_returns_last_error` at a concrete
input: two benignly failing candidates. -/
theorem connect_all_fail_returns_last_error_witness :
    (connect_with_cancellation
        (.ok ([⟨false, .ok 7, .ok (), .ok (), .ok (), .error (.transport 5), .ok ()⟩] ++
          [⟨true, .ok 8, .ok (), .ok (), .ok (), .error (.transport 6), .ok ()⟩]))
        .Enabled [] (.ok ()) (.ok ()) (fun _ => false)).2 = .err (.transport 6) ∧
    linkDeacts (connect_with_cancellation
        (.ok ([⟨false, .ok 7, .ok (), .ok (), .ok (), .error (.transport 5), .ok ()⟩] ++
          [⟨true, .ok 8, .ok (), .ok (), .ok (), .error (.transport 6), .ok ()⟩]))
        .Enabled [] (.ok ()) (.ok ()) (fun _ => false)).1 = 1 :=
  connect_all_fail_returns_last_error .Enabled [] (fun _ => false)
    [⟨false, .ok 7, .ok (), .ok (), .ok (), .error (.transport 5), .ok ()⟩]
    ⟨true, .ok 8, .ok (), .ok (), .ok (), .error (.transport 6), .ok ()⟩
    (.transport 6) (by decide) (fun j => rfl) rfl

/-- Events preceding a failed candidate's socket deactivation all belong
to candidates up to and including that candidate's index. -/
lemma mem_deact_prefix_bound (pv : PeerVerification) (tags : List Nat)
    (pre : List CandidateEnv) (cj : CandidateEnv) (ev : Ev)
    (hev : ev ∈ (.linkActivate : Ev) ::
      (skipTrace pv tags pre 0 ++ attemptSeg pv tags cj (0 + pre.length)))
    (m : Nat) (hm : ev.candIdx = some m) : m ≤ pre.length := by
  rcases List.mem_cons.mp hev with h | h
  · subst h
    simp [Ev.candIdx] at hm
  · rcases List.mem_append.mp h with h | h
    · have := (candIdx_skipTrace pv tags pre 0 ev h m hm).2
      omega
    · have := candIdx_attemptSeg pv tags cj (0 + pre.length) ev h
      rw [this] at hm
      cases hm
      omega

/-- Claim C5: during connect, when candidate `pre.length`'s handshake
fails, the failed capability's deactivation is attempted before any event
of a later candidate; and if that deactivation itself fails, connect
propagates the deactivation error immediately and attempts no remaining
candidate. -/
theorem connect_failed_candidate_deactivated (pv : PeerVerification)
    (tags : List Nat) (token : Nat → Bool) (pre rest : List CandidateEnv)
    (cj : CandidateEnv) (fd : Int) (e : Error)
    (hpre : ∀ c ∈ pre, c.failsBenignly)
    (htok : ∀ j, token j = false)
    (hcr : cj.create = .ok fd) (h1 : cj.setPeerVerify = .ok ())
    (h2 : cj.setSessionCache = .ok ()) (h3 : cj.setTagList = .ok ())
    (hh : cj.handshake = .error e) :
    (∃ tr1 tr2,
      (connect_with_cancellation (.ok (pre ++ cj :: rest)) pv tags
          (.ok ()) (.ok ()) token).1 = tr1 ++ .sockDeact pre.length :: tr2 ∧
      ∀ ev ∈ tr1, ∀ m, ev.candIdx = some m → m ≤ pre.length) ∧
    (∀ d, cj.sockDeactivate = .error d →
      (connect_with_cancellation (.ok (pre ++ cj :: rest)) pv tags
          (.ok ()) (.ok ()) token).2 = .err d ∧
      attempts (connect_with_cancellation (.ok (pre ++ cj :: rest)) pv tags
          (.ok ()) (.ok ()) token).1 = pre.length + 1) := by
  have htok0 : ∀ j, j < pre.length → token (0 + j) = false := fun j _ => by
    rw [Nat.zero_add]
    exact htok j
  rw [connect_with_cancellation_ok,
    connectLoop_skip pv tags token (.ok ()) pre (cj :: rest) 0 none hpre htok0]
  cases hsd : cj.sockDeactivate with
  | ok u =>
      cases u
      rw [connectLoop_failstep pv tags token (.ok ()) cj rest (0 + pre.length)
        (lastErrAfter pre none) fd e (htok _) hcr h1 h2 h3 hh hsd]
      constructor
      · refine ⟨.linkActivate ::
            (skipTrace pv tags pre 0 ++ attemptSeg pv tags cj (0 + pre.length)),
          (connectLoop pv tags token (.ok ()) rest (0 + pre.length + 1)
            (some e)).1, ?_, ?_⟩
        · show Ev.linkActivate ::
              (skipTrace pv tags pre 0 ++ (failSeg pv tags cj (0 + pre.length) ++
                (connectLoop pv tags token (.ok ()) rest (0 + pre.length + 1)
                  (some e)).1)) = _
          rw [show Ev.sockDeact pre.length = Ev.sockDeact (0 + pre.length) from by
            rw [Nat.zero_add]]
          simp [failSeg, List.append_assoc]
        · exact fun ev hev m hm => mem_deact_prefix_bound pv tags pre cj ev hev m hm
      · intro d hd
        cases hd
  | error d0 =>
      rw [connectLoop_deactfail pv tags token (.ok ()) cj rest (0 + pre.length)
        (lastErrAfter pre none) fd e d0 (htok _) hcr h1 h2 h3 hh hsd]
      constructor
      · refine ⟨.linkActivate ::
            (skipTrace pv tags pre 0 ++ attemptSeg pv tags cj (0 + pre.length)),
          [], ?_, ?_⟩
        · show Ev.linkActivate ::
              (skipTrace pv tags pre 0 ++ failSeg pv tags cj (0 + pre.length)) = _
          rw [show Ev.sockDeact pre.length = Ev.sockDeact (0 + pre.length) from by
            rw [Nat.zero_add]]
          simp [failSeg, List.append_assoc]
        · exact fun ev hev m hm => mem_deact_prefix_bound pv tags pre cj ev hev m hm
      · intro d hd
        injection hd with hdd
        subst hdd
        refine ⟨rfl, ?_⟩
        simp [attempts, List.countP_cons, List.countP_append,
          countP_tokenCheck_skipTrace, failSeg, attemptSeg, Ev.isTokenCheck]

/-- Witness for `connect_failed_candidate_deactivated` at a concrete
input: a single candidate whose handshake and deactivation both fail. -/
theorem connect_failed_candidate_deactivated_witness :
    (∃ tr1 tr2,
      (connect_with_cancellation
          (.ok ([] ++ ⟨false, .ok 7, .ok (), .ok (), .ok (),
            .error (.transport 5), .error (.link 4)⟩ :: [])) .Enabled []
          (.ok ()) (.ok ()) (fun _ => false)).1 =
        tr1 ++ .sockDeact ([] : List CandidateEnv).length :: tr2 ∧
      ∀ ev ∈ tr1, ∀ m, ev.candIdx = some m → m ≤ ([] : List CandidateEnv).length) ∧
    (∀ d, (CandidateEnv.mk false (.ok 7) (.ok ()) (.ok ()) (.ok ())
        (.error (.transport 5)) (.error (.link 4))).sockDeactivate = .error d →
      (connect_with_cancellation
          (.ok ([] ++ ⟨false, .ok 7, .ok (), .ok (), .ok (),
            .error (.transport 5), .error (.link 4)⟩ :: [])) .Enabled []
          (.ok ()) (.ok ()) (fun _ => false)).2 = .err d ∧
      attempts (connect_with_cancellation
          (.ok ([] ++ ⟨false, .ok 7, .ok (), .ok (), .ok (),
            .error (.transport 5), .error (.link 4)⟩ :: [])) .Enabled []
          (.ok ()) (.ok ()) (fun _ => false)).1 =
        ([] : List CandidateEnv).length + 1) :=
  connect_failed_candidate_deactivated .Enabled [] (fun _ => false) [] []
    ⟨false, .ok 7, .ok (), .ok (), .ok (), .error (.transport 5), .error (.link 4)⟩
    7 (.transport 5) (by decide) (fun j => rfl) rfl rfl rfl rfl rfl

/-- Claim C6: the cancellation token is checked before each candidate
attempt: if the token is already canceled when candidate `pre.length` is
reached, connect fails immediately with the cancellation error, no
transport capability is created for that attempt, and the physical link
is activated only once at the start of the call — never per attempt. -/
theorem connect_cancellation_checked_before_attempt (pv : PeerVerification)
    (tags : List Nat) (token : Nat → Bool) (pre rest : List CandidateEnv)
    (c : CandidateEnv) (ld : Except Error Unit)
    (hpre : ∀ cc ∈ pre, cc.failsBenignly)
    (htok : ∀ j, j < pre.length → token j = false)
    (hcan : token pre.length = true) :
    (connect_with_cancellation (.ok (pre ++ c :: rest)) pv tags
        (.ok ()) ld token).2 = .err .operationCancelled ∧
    (∀ fam, Ev.sockCreate pre.length fam ∉
      (connect_with_cancellation (.ok (pre ++ c :: rest)) pv tags
        (.ok ()) ld token).1) ∧
    (connect_with_cancellation (.ok (pre ++ c :: rest)) pv tags
        (.ok ()) ld token).1.countP Ev.isLinkActivate = 1 := by
  have htok0 : ∀ j, j < pre.length → token (0 + j) = false := fun j hj => by
    rw [Nat.zero_add]
    exact htok j hj
  rw [connect_with_cancellation_ok,
    connectLoop_skip pv tags token ld pre (c :: rest) 0 none hpre htok0,
    connectLoop_cancel pv tags token ld c rest (0 + pre.length)
      (lastErrAfter pre none) (by rw [Nat.zero_add]; exact hcan)]
  refine ⟨rfl, ?_, ?_⟩
  · intro fam hmem
    rcases List.mem_cons.mp hmem with h | h
    · cases h
    · rcases List.mem_append.mp h with h | h
      · have := (candIdx_skipTrace pv tags pre 0 _ h pre.length rfl).2
        omega
      · rw [List.mem_singleton] at h
        cases h
  · simp [List.countP_cons, List.countP_append,
      countP_linkActivate_skipTrace, Ev.isLinkActivate]

/-- Witness for `connect_cancellation_checked_before_attempt` with an
already-canceled token and a single candidate. -/
theorem connect_cancellation_checked_before_attempt_witness :
    (connect_with_cancellation
        (.ok ([] ++ ⟨false, .ok 7, .ok (), .ok (), .ok (), .ok (), .ok ()⟩ :: []))
        .Enabled [] (.ok ()) (.ok ()) (fun _ => true)).2 =
      .err .operationCancelled ∧
    (∀ fam, Ev.sockCreate ([] : List CandidateEnv).length fam ∉
      (connect_with_cancellation
        (.ok ([] ++ ⟨false, .ok 7, .ok (), .ok (), .ok (), .ok (), .ok ()⟩ :: []))
        .Enabled [] (.ok ()) (.ok ()) (fun _ => true)).1) ∧
    (connect_with_cancellation
        (.ok ([] ++ ⟨false, .ok 7, .ok (), .ok (), .ok (), .ok (), .ok ()⟩ :: []))
        .Enabled [] (.ok ()) (.ok ()) (fun _ => true)).1.countP
      Ev.isLinkActivate = 1 :=
  connect_cancellation_checked_before_attempt .Enabled [] (fun _ => true) [] []
    ⟨false, .ok 7, .ok (), .ok (), .ok (), .ok (), .ok ()⟩ (.ok ())
    (by decide) (fun j hj => absurd hj (Nat.not_lt_zero j)) rfl

/-- Claim C9: with the link collaborators succeeding, an empty resolved
candidate list makes connect panic on `last_error.take().unwrap()`
(`ConnectResult.panic`) rather than return any `Error` value, and a
non-panicking run necessarily attempted at least one candidate. -/
theorem connect_empty_candidates_invariant (pv : PeerVerification)
    (tags : List Nat) (token : Nat → Bool) (cands : List CandidateEnv)
    (hnp : (connect_with_cancellation (.ok cands) pv tags
      (.ok ()) (.ok ()) token).2 ≠ .panic) :
    (connect_with_cancellation (.ok ([] : List CandidateEnv)) pv tags
        (.ok ()) (.ok ()) token).2 = .panic ∧
    1 ≤ attempts (connect_with_cancellation (.ok cands) pv tags
        (.ok ()) (.ok ()) token).1 := by
  refine ⟨rfl, ?_⟩
  cases cands with
  | nil => exact absurd rfl hnp
  | cons c rest =>
      obtain ⟨tr, htr⟩ := connectLoop_cons_head pv tags token (.ok ()) c rest 0 none
      rw [connect_with_cancellation_ok, htr]
      simp [attempts, List.countP_cons, Ev.isTokenCheck]

/-- Witness for `connect_empty_candidates_invariant` with a succeeding
single-candidate list. -/
theorem connect_empty_candidates_invariant_witness :
    (connect_with_cancellation (.ok ([] : List CandidateEnv)) .Enabled []
        (.ok ()) (.ok ()) (fun _ => false)).2 = .panic ∧
    1 ≤ attempts (connect_with_cancellation
        (.ok [⟨false, .ok 7, .ok (), .ok (), .ok (), .ok (), .ok ()⟩]) .Enabled []
        (.ok ()) (.ok ()) (fun _ => false)).1 :=
  connect_empty_candidates_invariant .Enabled [] (fun _ => false)
    [⟨false, .ok 7, .ok (), .ok (), .ok (), .ok (), .ok ()⟩] (by decide)

end NrfModem
